import Mathlib

/-!
Verification of the OFS content-addressed repository engine.

This file shallowly embeds the parts of the OFS source relevant to the
stated properties: the SHA-256 hasher (`ofs/utils/hash/compute_bytes.py`),
the object store (`ofs/core/objects/store.py`), the staging index
(`ofs/core/index/manager.py`), commit loading/caching/listing
(`ofs/core/commits/load.py`, `list.py`), file-action inference
(`ofs/core/commits/create.py`), the two tree-state reconstructions
(`ofs/core/commits/tree.py` and `ofs/commands/checkout/execute.py`),
reference handling (`ofs/core/refs/update_ref.py`, `read_head.py`),
ignore-pattern evaluation (`ofs/utils/ignore/patterns.py`) and the
checkout command (`ofs/commands/checkout/execute.py`).

Bytes are modelled as `List Nat` (each element a byte value), file-system
maps as association lists with Python-dict semantics (insertion order
preserved, assignment to an existing key overwrites in place, deletion
removes), and machine words as `Nat` reduced modulo `2 ^ 32` wherever the
Python `hashlib` arithmetic wraps.
-/

namespace OFS

/-! ## Python-dict association lists

Python `dict` preserves insertion order; assigning to an existing key
overwrites the value in place, a new key is appended, `del` removes the
key.  These three operations are modelled on association lists. -/

/-- Lookup of the first (and, for lists built by `dinsert`, only) binding
of a key.  Mirrors Python `d[k]` / `d.get(k)`. -/
def dlookup {α β : Type} [DecidableEq α] : List (α × β) → α → Option β
  | [], _ => none
  | (k, v) :: rest, key => if k = key then some v else dlookup rest key

/-- Python `d[k] = v`: overwrite in place if the key is present, else
append the new binding. -/
def dinsert {α β : Type} [DecidableEq α] : List (α × β) → α → β → List (α × β)
  | [], key, v => [(key, v)]
  | (k, w) :: rest, key, v =>
    if k = key then (key, v) :: rest else (k, w) :: dinsert rest key v

/-- Python `del d[k]` (on lists without duplicate keys this removes the
sole binding; guarded deletes in the source never fail). -/
def ddelete {α β : Type} [DecidableEq α] : List (α × β) → α → List (α × β)
  | [], _ => []
  | (k, v) :: rest, key =>
    if k = key then rest else (k, v) :: ddelete rest key

/-! ## SHA-256 (`ofs/utils/hash/compute_bytes.py`)

`compute_hash(data)` is `hashlib.sha256(data).hexdigest()`.  The FIPS
180-4 algorithm is embedded over `Nat` with explicit reduction modulo
`2 ^ 32`; the digest is rendered as 64 lowercase hex characters. -/

def w32 : Nat := 4294967296

/-- Right rotation of a 32-bit word. -/
def rotr (n x : Nat) : Nat := x / 2 ^ n + x % 2 ^ n * 2 ^ (32 - n)

/-- Logical right shift of a 32-bit word. -/
def shr (n x : Nat) : Nat := x / 2 ^ n

/-- Bitwise complement within 32 bits. -/
def compl32 (x : Nat) : Nat := (w32 - 1) ^^^ x

def ch32 (x y z : Nat) : Nat := (x &&& y) ^^^ (compl32 x &&& z)

def maj32 (x y z : Nat) : Nat := (x &&& y) ^^^ (x &&& z) ^^^ (y &&& z)

def bsig0 (x : Nat) : Nat := rotr 2 x ^^^ rotr 13 x ^^^ rotr 22 x

def bsig1 (x : Nat) : Nat := rotr 6 x ^^^ rotr 11 x ^^^ rotr 25 x

def ssig0 (x : Nat) : Nat := rotr 7 x ^^^ rotr 18 x ^^^ shr 3 x

def ssig1 (x : Nat) : Nat := rotr 17 x ^^^ rotr 19 x ^^^ shr 10 x

/-- Round-constant table of FIPS 180-4 (values written in decimal). -/
def sha256K : Array Nat := #[
  1116352408, 1899447441, 3049323471, 3921009573,
  961987163, 1508970993, 2453635748, 2870763221,
  3624381080, 310598401, 607225278, 1426881987,
  1925078388, 2162078206, 2614888103, 3248222580,
  3835390401, 4022224774, 264347078, 604807628,
  770255983, 1249150122, 1555081692, 1996064986,
  2554220882, 2821834349, 2952996808, 3210313671,
  3336571891, 3584528711, 113926993, 338241895,
  666307205, 773529912, 1294757372, 1396182291,
  1695183700, 1986661051, 2177026350, 2456956037,
  2730485921, 2820302411, 3259730800, 3345764771,
  3516065817, 3600352804, 4094571909, 275423344,
  430227734, 506948616, 659060556, 883997877,
  958139571, 1322822218, 1537002063, 1747873779,
  1955562222, 2024104815, 2227730452, 2361852424,
  2428436474, 2756734187, 3204031479, 3329325298]

/-- Starting hash state of FIPS 180-4 (values written in decimal). -/
def sha256IV : Array Nat := #[
  1779033703, 3144134277, 1013904242, 2773480762,
  1359893119, 2600822924, 528734635, 1541459225]

/-- Merkle–Damgård padding: append `0x80`, zeros to 56 mod 64, then the
bit length as 8 big-endian bytes. -/
def sha256Pad (msg : List Nat) : List Nat :=
  let len := msg.length
  let zeros := (119 - len % 64) % 64
  let bitLen := len * 8
  msg ++ [0x80] ++ List.replicate zeros 0 ++
    (List.range 8).map (fun i => bitLen / 2 ^ (8 * (7 - i)) % 256)

/-- Split the padded message into 64-byte blocks (structural recursion on
a fuel counter so that the kernel can evaluate it; the fuel is always
sufficient since every step consumes at least one byte). -/
def sha256BlocksAux : Nat → List Nat → List (List Nat)
  | 0, _ => []
  | _, [] => []
  | n + 1, b :: rest => (b :: rest).take 64 :: sha256BlocksAux n ((b :: rest).drop 64)

/-- Split the padded message into 64-byte blocks. -/
def sha256Blocks (bytes : List Nat) : List (List Nat) :=
  sha256BlocksAux bytes.length bytes

/-- Pack a 64-byte block into 16 big-endian 32-bit words. -/
def blockWords (block : List Nat) : Array Nat :=
  ((List.range 16).map (fun i =>
    block.getD (4 * i) 0 * 2 ^ 24 + block.getD (4 * i + 1) 0 * 2 ^ 16 +
    block.getD (4 * i + 2) 0 * 2 ^ 8 + block.getD (4 * i + 3) 0)).toArray

/-- Message schedule: extend 16 words to 64. -/
def msgSchedule (ws : Array Nat) : Array Nat :=
  (List.range 48).foldl (fun a i =>
    let t := i + 16
    a.push ((ssig1 (a.getD (t - 2) 0) + a.getD (t - 7) 0 +
             ssig0 (a.getD (t - 15) 0) + a.getD (t - 16) 0) % w32)) ws

/-- Working registers of the compression function. -/
structure Regs where
  ra : Nat
  rb : Nat
  rc : Nat
  rd : Nat
  re : Nat
  rf : Nat
  rg : Nat
  rh : Nat

/-- One block of the SHA-256 compression function. -/
def sha256Compress (h : Array Nat) (block : List Nat) : Array Nat :=
  let w := msgSchedule (blockWords block)
  let init : Regs :=
    ⟨h.getD 0 0, h.getD 1 0, h.getD 2 0, h.getD 3 0,
     h.getD 4 0, h.getD 5 0, h.getD 6 0, h.getD 7 0⟩
  let s := (List.range 64).foldl (fun (s : Regs) t =>
    let t1 := (s.rh + bsig1 s.re + ch32 s.re s.rf s.rg +
               sha256K.getD t 0 + w.getD t 0) % w32
    let t2 := (bsig0 s.ra + maj32 s.ra s.rb s.rc) % w32
    ⟨(t1 + t2) % w32, s.ra, s.rb, s.rc, (s.rd + t1) % w32, s.re, s.rf, s.rg⟩)
    init
  #[(h.getD 0 0 + s.ra) % w32, (h.getD 1 0 + s.rb) % w32,
    (h.getD 2 0 + s.rc) % w32, (h.getD 3 0 + s.rd) % w32,
    (h.getD 4 0 + s.re) % w32, (h.getD 5 0 + s.rf) % w32,
    (h.getD 6 0 + s.rg) % w32, (h.getD 7 0 + s.rh) % w32]

/-- Lowercase hex digit. -/
def hexDigit (n : Nat) : Char :=
  if n < 10 then Char.ofNat (48 + n) else Char.ofNat (87 + n)

/-- A 32-bit word as 8 lowercase hex characters. -/
def wordHex (x : Nat) : List Char :=
  (List.range 8).map (fun i => hexDigit (x / 2 ^ (4 * (7 - i)) % 16))

/-- Embeds `compute_hash(data)`: the SHA-256 hex digest of a byte sequence,
64 lowercase hex characters. -/
def compute_hash (data : List Nat) : String :=
  let final := (sha256Blocks (sha256Pad data)).foldl sha256Compress sha256IV
  String.mk (final.toList.foldr (fun word acc => wordHex word ++ acc) [])

/-! ## Python string primitives

Python `str` operations used by the source, embedded over `List Char`
(code-point sequences, which is what Python strings are for the ASCII
data handled here) and wrapped back into `String`. -/

/-- Characters removed by Python `str.strip()` (ASCII whitespace). -/
def pyIsSpace (c : Char) : Bool :=
  c = ' ' || c = '\t' || c = '\n' || c = '\x0d' || c = '\x0b' || c = '\x0c'

/-- Python `s.strip()`. -/
def pyStrip (s : String) : String :=
  String.mk (((s.data.dropWhile pyIsSpace).reverse.dropWhile pyIsSpace).reverse)

/-- Python `s.startswith(p)`. -/
def pyStartsWith (s p : String) : Bool :=
  p.data.isPrefixOf s.data

/-- Python `s.endswith(p)`. -/
def pyEndsWith (s p : String) : Bool :=
  p.data.isSuffixOf s.data

/-- Python `s[n:]`. -/
def pyDrop (s : String) (n : Nat) : String :=
  String.mk (s.data.drop n)

/-- Python `s[:-n]` for `0 < n ≤ len(s)`. -/
def pyDropRight (s : String) (n : Nat) : String :=
  String.mk (s.data.take (s.data.length - n))

/-- Python `s.lower()` restricted to ASCII, which is all the source
compares after lowercasing. -/
def pyToLower (s : String) : String :=
  String.mk (s.data.map fun c =>
    if 'A' ≤ c ∧ c ≤ 'Z' then Char.ofNat (c.toNat + 32) else c)

/-- Embeds `pathlib.Path(p).name`: the final slash-separated component. -/
def pathBaseName (s : String) : String :=
  (s.splitOn "/").getLastD s

/-- Python string `<=` (lexicographic on code points), on char lists. -/
def charListLe : List Char → List Char → Bool
  | [], _ => true
  | _ :: _, [] => false
  | a :: as, b :: bs => if a = b then charListLe as bs else decide (a < b)

/-- Python string `<=` on `String`. -/
def strLe (s t : String) : Bool := charListLe s.data t.data

/-! ## Data model

`Entry` models the JSON dictionaries used both as index entries and as
commit file-entries (`{path, hash, size, mode, mtime, action}`; the
`action` field is present only on commit file-entries, `none` elsewhere,
and `hash` may be JSON `null`).  `Commit` models
`{id, parent, message, author, email, timestamp, files}`. -/

structure Entry where
  path : String
  hash : Option String := none
  size : Nat := 0
  mode : String := "100644"
  mtime : Nat := 0
  action : Option String := none
deriving DecidableEq, Repr

/-- Metadata dictionary passed to `Index.add`. -/
structure Metadata where
  size : Nat := 0
  mode : String := "100644"
  mtime : Nat := 0
deriving DecidableEq, Repr

structure Commit where
  id : String
  parent : Option String := none
  message : String := ""
  author : String := ""
  email : String := ""
  timestamp : String := ""
  files : List Entry := []
deriving DecidableEq, Repr

/-! ## Object store (`ofs/core/objects/store.py`)

The `objects/` directory is modelled as an association list from the
two-level fan-out path `(h[0:2], h[2:])` to the stored bytes.  The
atomic write is modelled as the map update (its crash behaviour is out
of scope here). -/

/-- The object-store directory contents. -/
abbrev Objects : Type := List ((String × String) × List Nat)

/-- Embeds `ObjectStore._get_path`: two-level fan-out `<h[0:2]>/<h[2:]>`. -/
def objPath (hashValue : String) : String × String :=
  (String.mk (hashValue.data.take 2), String.mk (hashValue.data.drop 2))

/-- Embeds `ObjectStore.exists`. -/
def objExists (hashValue : String) (σ : Objects) : Bool :=
  (dlookup σ (objPath hashValue)).isSome

/-- Embeds `ObjectStore.store`: hash, dedup short-circuit, else write. -/
def objStore (content : List Nat) (σ : Objects) : String × Objects :=
  let hashValue := compute_hash content
  if objExists hashValue σ then (hashValue, σ)
  else (hashValue, dinsert σ (objPath hashValue) content)

/-- The failures `ObjectStore.retrieve` can raise
(`FileNotFoundError` / `ValueError`). -/
inductive StoreError where
  | objectNotFound
  | corruption
deriving DecidableEq, Repr

/-- Embeds `ObjectStore.retrieve`: read, re-hash, fail on mismatch. -/
def objRetrieve (hashValue : String) (σ : Objects) :
    Except StoreError (List Nat) :=
  match dlookup σ (objPath hashValue) with
  | none => .error .objectNotFound
  | some content =>
    if compute_hash content ≠ hashValue then .error .corruption
    else .ok content

/-- Embeds `ObjectStore.verify`: `retrieve`, catching only the corruption error
(`except ValueError: return False`); `FileNotFoundError` propagates. -/
def objVerify (hashValue : String) (σ : Objects) : Except StoreError Bool :=
  match objRetrieve hashValue σ with
  | .ok _ => .ok true
  | .error .corruption => .ok false
  | .error e => .error e

/-! ## Index (`ofs/core/index/manager.py`)

Only the entry list is modelled: the source keeps `_entries_by_path`
derived from `_entries` and every operation updates both together, so
path membership in the map equals path membership in the list.  The
atomic `_save` persists the list verbatim and is not modelled
separately. -/

/-- The list transformation performed by `Index.add` (and by each step
of `Index.batch_add`): drop any existing entry for the path, append the
new entry built from `path`, `hash` and the metadata. -/
def indexAdd (entries : List Entry) (filePath : String)
    (hashValue : Option String) (metadata : Metadata) : List Entry :=
  let entry : Entry :=
    { path := filePath, hash := hashValue, size := metadata.size,
      mode := metadata.mode, mtime := metadata.mtime }
  let entries' :=
    if entries.any (fun e => e.path == filePath) then
      entries.filter (fun e => e.path != filePath)
    else entries
  entries' ++ [entry]

/-- Embeds `Index.batch_add`: the same replacement applied per tuple, then one
save. -/
def indexBatchAdd (entries : List Entry)
    (adds : List (String × Option String × Metadata)) : List Entry :=
  adds.foldl (fun acc a => indexAdd acc a.1 a.2.1 a.2.2) entries

/-! ## Commit loading and the commit cache (`ofs/core/commits/load.py`)

The `commits/` directory is modelled as an association list from file
stem (the commit id of `<id>.json`) to the parse outcome of that file:
`none` models a parse failure, `some c` a successfully parsed commit.
A stem absent from the list models a missing file. -/

/-- Contents of the `commits/` directory. -/
abbrev CommitDisk : Type := List (String × Option Commit)

/-- Embeds `_load_commit_from_disk`: `none` when the file is missing or fails
to parse. -/
def load_commit_from_disk (commitId : String) (disk : CommitDisk) :
    Option Commit :=
  match dlookup disk commitId with
  | none => none
  | some outcome => outcome

/-- Cache keys are `(commit_id, resolved_commits_dir)` pairs. -/
abbrev CacheKey : Type := String × String

/-- Embeds `_CommitCache._store`: insertion-ordered map from key to the cached
load outcome (failed loads are stored as `none`). -/
abbrev Cache : Type := List (CacheKey × Option Commit)

/-- Embeds `_CommitCache._max_size` default. -/
def cacheMaxSize : Nat := 128

/-- Embeds `_CommitCache.get`: `(found, value)`; a hit on a stored `None`
returns `(True, None)`. -/
def cacheGet (cache : Cache) (key : CacheKey) : Bool × Option Commit :=
  match dlookup cache key with
  | some value => (true, value)
  | none => (false, none)

/-- Embeds `_CommitCache.put`: evict the oldest (first-inserted) entry when
full, then store the value — also when the value is a failed load. -/
def cachePut (cache : Cache) (key : CacheKey) (value : Option Commit) :
    Cache :=
  let cache' := if cacheMaxSize ≤ cache.length then cache.drop 1 else cache
  dinsert cache' key value

/-- Embeds `load_commit`: consult the cache first; on a miss, read the disk and
unconditionally `put` the result, then return it (copies are modelled by
value equality). -/
def load_commit (commitId : String) (dirPath : String) (disk : CommitDisk)
    (cache : Cache) : Option Commit × Cache :=
  let key : CacheKey := (commitId, dirPath)
  let hit := cacheGet cache key
  if hit.fst then (hit.snd, cache)
  else
    let result := load_commit_from_disk commitId disk
    (result, cachePut cache key result)

/-! ## Commit listing (`ofs/core/commits/list.py`)

`list_commits` parses every `*.json` file, skips failures, and sorts by
the commit's `id` string descending with Python's stable sort
(`commits.sort(key=..., reverse=True)`), embedded as a stable descending
insertion sort under the code-point order `strLe`. -/

/-- Stable descending insertion: the new commit goes after every commit
whose id is `≥` its own. -/
def insertDesc (c : Commit) : List Commit → List Commit
  | [] => [c]
  | d :: ds => if strLe c.id d.id then d :: insertDesc c ds else c :: d :: ds

/-- Python's stable sort with `key=lambda c: c.get("id", "")` and
`reverse=True`. -/
def sortByIdDesc (l : List Commit) : List Commit :=
  l.foldl (fun acc c => insertDesc c acc) []

/-- Embeds `list_commits` over the parse outcomes of the `*.json` files, in
directory order: failures are skipped, survivors sorted by id
descending. -/
def list_commits (files : List (Option Commit)) : List Commit :=
  sortByIdDesc (files.filterMap id)

/-! ## Tree-state reconstruction

Two implementations exist in the source: the parent-chain walk of
`ofs/core/commits/tree.py` and the list-based variant of
`ofs/commands/checkout/execute.py`.  Tree states are Python dicts from
path to file-entry.  Commit loads go through the cache in the source;
they are modelled as direct disk reads, which coincides with the cached
behaviour whenever the cache is consistent with the disk (no out-of-band
mutation).  The unguarded `while current_id` walk is given fuel
`|disk| + 1`, which the linearity hypotheses below show is never
exhausted. -/

/-- Applying one commit's file-entries to a tree state: `deleted`
removes the path, every other action sets or overwrites it. -/
def applyFiles (tree : List (String × Entry)) (c : Commit) :
    List (String × Entry) :=
  c.files.foldl (fun t e =>
    if e.action == some "deleted" then ddelete t e.path
    else dinsert t e.path e) tree

/-- The `while current_id` loop of `tree.py`: follow parent pointers,
stopping on a falsy id, a missing commit, or fuel exhaustion. -/
def walkParentChain (disk : CommitDisk) : Nat → Option String → List Commit
  | 0, _ => []
  | _, none => []
  | fuel + 1, some currentId =>
    if currentId = "" then []
    else
      match load_commit_from_disk currentId disk with
      | none => []
      | some c => c :: walkParentChain disk fuel c.parent

/-- Embeds `build_tree_state` of `ofs/core/commits/tree.py`: collect the parent
chain newest-first, then fold the reversed chain oldest-first. -/
def build_tree_state_chain (commitId : String) (disk : CommitDisk) :
    List (String × Entry) :=
  let chain := walkParentChain disk (disk.length + 1) (some commitId)
  chain.reverse.foldl applyFiles []

/-- The `for commit in reversed(all_commits): append; break on target`
loop: every commit up to and including the first with the target id
(all commits when the id never occurs). -/
def takeThroughId (targetId : String) : List Commit → List Commit
  | [] => []
  | c :: cs => c :: (if c.id = targetId then [] else takeThroughId targetId cs)

/-- Embeds `build_tree_state` of `ofs/commands/checkout/execute.py`: sort all
commits id-descending, reverse, apply up to the target. -/
def build_tree_state_list (commitId : String) (disk : CommitDisk) :
    List (String × Entry) :=
  let allCommits := list_commits (disk.map Prod.snd)
  let commitsToApply := takeThroughId commitId allCommits.reverse
  commitsToApply.foldl applyFiles []

/-- A commit store laid out canonically on disk: each commit of the
history saved under its own id, all files parseable. -/
def canonDisk (ch : List Commit) : CommitDisk :=
  ch.map (fun c => (c.id, some c))

/-- Strict linearity of a history listed oldest-first: the first commit's
parent is the given id (the root has `none`), every later commit's parent
is its predecessor's id, and ids are non-falsy. -/
def chainLinked : Option String → List Commit → Bool
  | _, [] => true
  | p, c :: rest =>
    (c.parent == p) && (c.id != "") && chainLinked (some c.id) rest

/-! ## File-action inference (`ofs/core/commits/create.py`)

`get_file_actions` compares the staged entries with the full parent tree
state (computed by the checkout `build_tree_state` in the source); the
comparison itself is over the staged list and that tree, which is how it
is embedded here. -/

/-- The per-staged-entry classification of `get_file_actions`. -/
def actionFor (parentFiles : List (String × Entry)) (s : Entry) : Entry :=
  match dlookup parentFiles s.path with
  | none => { s with action := some "added" }
  | some parentEntry =>
    if parentEntry.hash ≠ s.hash then { s with action := some "modified" }
    else { s with action := some "unchanged" }

/-- Embeds `get_file_actions(staged_files, parent_tree)`: classify each staged
entry, then append a `deleted` copy of every parent-tree entry whose
path is not staged. -/
def get_file_actions (stagedFiles : List Entry)
    (parentFiles : List (String × Entry)) : List Entry :=
  let withActions :=
    stagedFiles.foldl (fun acc s => acc ++ [actionFor parentFiles s]) []
  if parentFiles.isEmpty then withActions
  else
    parentFiles.foldl (fun acc pf =>
      if stagedFiles.any (fun f => f.path == pf.fst) then acc
      else acc ++ [{ pf.snd with action := some "deleted" }]) withActions

/-! ## References (`ofs/core/refs/read_head.py`, `update_ref.py`)

The `.ofs` reference files are modelled as their raw textual contents:
`head = none` models a missing HEAD file, and `refs` maps the ref path
written inside a symbolic HEAD (e.g. `refs/heads/main`) to the contents
of that file. -/

structure RefState where
  head : Option String := none
  refs : List (String × String) := []
deriving DecidableEq, Repr

/-- Embeds `read_head`: the stripped HEAD contents, or `None` when the file is
missing or strips to empty. -/
def read_head (σ : RefState) : Option String :=
  match σ.head with
  | none => none
  | some raw =>
    let content := pyStrip raw
    if content = "" then none else some content

/-- Embeds `resolve_head`: follow a symbolic `ref: ` HEAD through the branch
file; otherwise the contents are the commit id. -/
def resolve_head (σ : RefState) : Option String :=
  match read_head σ with
  | none => none
  | some headContent =>
    if pyStartsWith headContent "ref: " then
      match dlookup σ.refs (pyDrop headContent 5) with
      | none => none
      | some refRaw =>
        let commitId := pyStrip refRaw
        if commitId = "" then none else some commitId
    else some headContent

/-- Embeds `is_detached_head`: HEAD contents exist and do not start with
`ref: `. -/
def is_detached_head (σ : RefState) : Bool :=
  match read_head σ with
  | none => false
  | some headContent => !(pyStartsWith headContent "ref: ")

/-- Embeds `update_ref`: atomic write of `value.strip() + "\n"` to the ref
file. -/
def refFileContents (value : String) : String := pyStrip value ++ "\n"

/-- Embeds `update_head`: in detached mode overwrite HEAD with the commit id;
otherwise update the branch file the (possibly defaulted) HEAD points
at, or HEAD itself when its contents are not a `ref: ` line. -/
def update_head (σ : RefState) (commitId : String) (detached : Bool) :
    RefState :=
  if detached then { σ with head := some (refFileContents commitId) }
  else
    let headContent :=
      match σ.head with
      | none => "ref: refs/heads/main"
      | some raw => pyStrip raw
    if pyStartsWith headContent "ref: " then
      { σ with refs :=
          dinsert σ.refs (pyDrop headContent 5) (refFileContents commitId) }
    else { σ with head := some (refFileContents commitId) }

/-! ## Ignore patterns (`ofs/utils/ignore/patterns.py`)

`compile_patterns` turns each pattern into
`(raw, name_regex, path_regex, is_negation, is_dir_pattern)`, the
regexes coming from `fnmatch.translate`, which produces an anchored
full-string match of the glob.  The regexes are modelled by keeping the
glob sources and matching them with an embedding of `fnmatch` glob
semantics (`*` matches any run including `/`, `?` any one character,
`[...]`/`[!...]` character classes with ranges, an unterminated `[` is a
literal). -/

/-- Scan a character class body up to the closing `]`; `none` when the
class is unterminated. -/
def scanClass (acc : List Char) : List Char → Option (List Char × List Char)
  | [] => none
  | ']' :: rest => some (acc.reverse, rest)
  | c :: rest => scanClass (c :: acc) rest

/-- Split `[...]` contents after the opening bracket: negation flag,
class body, remainder.  A `]` directly after `[` or `[!` is a literal
member of the class. -/
def parseClass (s : List Char) :
    Option (Bool × List Char × List Char) :=
  let (neg, s1) := match s with
    | '!' :: rest => (true, rest)
    | rest => (false, rest)
  match s1 with
  | ']' :: rest => (scanClass [']'] rest).map (fun p => (neg, p.1, p.2))
  | rest => (scanClass [] rest).map (fun p => (neg, p.1, p.2))

/-- Membership of a character in a class body, with `a-b` ranges; a
trailing `-` is a literal. -/
def classHas : List Char → Char → Bool
  | [], _ => false
  | a :: '-' :: b :: rest, c =>
    (a.toNat ≤ c.toNat && c.toNat ≤ b.toNat) || classHas rest c
  | a :: rest, c => a == c || classHas rest c

/-- Glob matching with fuel (structural so the kernel can evaluate it);
every step consumes pattern or subject, so `|pattern| + |subject| + 1`
fuel never runs out. -/
def globMatchF : Nat → List Char → List Char → Bool
  | 0, _, _ => false
  | _ + 1, [], [] => true
  | _ + 1, [], _ :: _ => false
  | fuel + 1, '*' :: ps, s =>
    globMatchF fuel ps s ||
      (match s with
       | [] => false
       | _ :: t => globMatchF fuel ('*' :: ps) t)
  | _ + 1, '?' :: _, [] => false
  | fuel + 1, '?' :: ps, _ :: t => globMatchF fuel ps t
  | fuel + 1, '[' :: ps, s =>
    match parseClass ps with
    | none =>
      match s with
      | c :: t => '[' == c && globMatchF fuel ps t
      | [] => false
    | some (neg, body, ps') =>
      match s with
      | c :: t => (classHas body c != neg) && globMatchF fuel ps' t
      | [] => false
  | _ + 1, _ :: _, [] => false
  | fuel + 1, p :: ps, c :: t => p == c && globMatchF fuel ps t

/-- Full-string glob match, as `re.match` of `fnmatch.translate(pat)`. -/
def globMatch (pattern subject : String) : Bool :=
  globMatchF (pattern.data.length + subject.data.length + 1)
    pattern.data subject.data

/-- One compiled pattern:
`(raw, name_regex, path_regex, is_negation, is_dir_pattern)`, with the
two regexes kept as their glob sources. -/
structure CompiledPattern where
  raw : String
  nameGlob : String
  pathGlob : String
  isNegation : Bool
  isDirPattern : Bool
deriving DecidableEq, Repr

/-- Compilation of a single pattern (the loop body of
`compile_patterns`); `none` for the skipped empty pattern. -/
def compileOne (pattern : String) : Option CompiledPattern :=
  if pattern = "" then none
  else
    let isNegation := pyStartsWith pattern "!"
    let raw0 := if isNegation then pyDrop pattern 1 else pattern
    let isDirPattern := pyEndsWith raw0 "/"
    let raw := if isDirPattern then pyDropRight raw0 1 else raw0
    let matchRaw := if pyStartsWith raw "**/" then pyDrop raw 3 else raw
    some { raw := raw, nameGlob := matchRaw, pathGlob := raw,
           isNegation := isNegation, isDirPattern := isDirPattern }

/-- Embeds `compile_patterns`. -/
def compile_patterns (patterns : List String) : List CompiledPattern :=
  patterns.filterMap compileOne

/-- Embeds `_matches_compiled` on the derived name and path strings. -/
def matches_compiled (pathName pathStr : String) (cp : CompiledPattern) :
    Bool :=
  (cp.isDirPattern &&
    (pyStartsWith pathStr (cp.raw ++ "/") ||
     pathName == cp.raw || pathStr == cp.raw)) ||
  globMatch cp.nameGlob pathName ||
  globMatch cp.pathGlob pathStr

/-- Embeds `should_ignore_compiled`: process patterns in order, a positive
match sets the state, a negation match clears it. -/
def should_ignore_compiled (pathName pathStr : String)
    (compiled : List CompiledPattern) : Bool :=
  compiled.foldl (fun ignored cp =>
    if matches_compiled pathName pathStr cp then !cp.isNegation
    else ignored) false

/-- Embeds `should_ignore(path, patterns)` for a repository-relative
slash-separated path: compile then evaluate (the `repo_root`
relativisation is the identity on such paths). -/
def should_ignore (pathStr : String) (patterns : List String) : Bool :=
  if patterns.isEmpty then false
  else
    should_ignore_compiled (pathBaseName pathStr) pathStr
      (compile_patterns patterns)

/-- The claim's fold step over the raw pattern sequence: a matching
positive pattern sets the state to true, a matching negation pattern
sets it to false, anything else (including the skipped empty pattern)
leaves it. -/
def ignoreFoldStep (pathName pathStr : String) (state : Bool)
    (pattern : String) : Bool :=
  match compileOne pattern with
  | none => state
  | some cp =>
    if matches_compiled pathName pathStr cp then !cp.isNegation else state

/-! ## The checkout command (`ofs/commands/checkout/execute.py`)

The repository is modelled as one state record; `execute` is a function
from that state to an exit code and successor state.  The interactive
`input()` answer is a parameter.  Commit reads are direct disk reads
(cache elided as above), and `ObjectStore.__init__`'s `mkdir` of an
existing directory is the identity. -/

structure RepoState where
  initialized : Bool := true
  workspace : List (String × List Nat) := []
  indexEntries : List Entry := []
  refState : RefState := {}
  objects : Objects := []
  commitsDisk : CommitDisk := []
deriving DecidableEq, Repr

/-- The restore loop: entries with a falsy path or no hash are skipped;
a retrieve failure or hash mismatch aborts with the partial workspace;
otherwise the file is written.  Returns `(success, workspace')`. -/
def restoreFiles (objects : Objects) :
    List Entry → List (String × List Nat) → Bool × List (String × List Nat)
  | [], ws => (true, ws)
  | e :: rest, ws =>
    match e.hash with
    | none => restoreFiles objects rest ws
    | some fileHash =>
      if e.path = "" ∨ fileHash = "" then restoreFiles objects rest ws
      else
        match objRetrieve fileHash objects with
        | .error _ => (false, ws)
        | .ok content =>
          if compute_hash content ≠ fileHash then (false, ws)
          else restoreFiles objects rest (dinsert ws e.path content)

/-- Embeds `ofs checkout` (`execute`), from the point where the arguments are
parsed: returns the exit code and the repository state afterwards. -/
def checkout_execute (commitId : String) (force : Bool)
    (promptAnswer : String) (σ : RepoState) : Nat × RepoState :=
  if !σ.initialized then (1, σ)
  else
    match load_commit_from_disk commitId σ.commitsDisk with
    | none => (1, σ)
    | some _commit =>
      if !force && !σ.indexEntries.isEmpty &&
          pyToLower (pyStrip promptAnswer) != "y" then (1, σ)
      else
        let treeState := build_tree_state_list commitId σ.commitsDisk
        let filesToRestore := treeState.map Prod.snd
        if filesToRestore.any (fun e =>
            match e.hash with
            | none => true
            | some fileHash => !objExists fileHash σ.objects) then (1, σ)
        else
          let targetFiles := treeState.map Prod.fst
          let filesToRemove :=
            match resolve_head σ.refState with
            | none => []
            | some currentHead =>
              ((build_tree_state_list currentHead σ.commitsDisk).map
                  Prod.fst).filter (fun p => !targetFiles.contains p)
          match restoreFiles σ.objects filesToRestore σ.workspace with
          | (false, wsPartial) => (1, { σ with workspace := wsPartial })
          | (true, wsRestored) =>
            let wsFinal :=
              filesToRemove.foldl (fun ws p => ddelete ws p) wsRestored
            let newIndex := filesToRestore.foldl (fun idx e =>
              indexAdd idx e.path e.hash
                { size := e.size, mode := e.mode, mtime := 0 }) []
            let newRefState := update_head σ.refState commitId true
            let σFinal := { σ with
              workspace := wsFinal
              indexEntries := newIndex
              refState := newRefState }
            (0, σFinal)

/-! ## Concrete repository fragments used in witnesses and
counterexamples -/

/-- A root commit with id `999` adding `a.txt`. -/
def cex999 : Commit :=
  { id := "999",
    files := [{ path := "a.txt", hash := some "ha", action := some "added" }] }

/-- The successor commit with id `1000` adding `b.txt`. -/
def cex1000 : Commit :=
  { id := "1000", parent := some "999",
    files := [{ path := "b.txt", hash := some "hb", action := some "added" }] }

/-- A root commit with id `001` adding `a.txt`. -/
def wit001 : Commit :=
  { id := "001",
    files := [{ path := "a.txt", hash := some "ha", action := some "added" }] }

/-- The successor commit with id `002` modifying `a.txt`. -/
def wit002 : Commit :=
  { id := "002", parent := some "001",
    files := [{ path := "a.txt", hash := some "hb", action := some "modified" }] }

/-- A reference state whose HEAD is the canonical symbolic ref. -/
def headSymbolic : RefState :=
  { head := some "ref: refs/heads/main\n" }

/-- An initialized repository holding commit `001` but none of the blobs
it references. -/
def missingBlobRepo : RepoState :=
  { commitsDisk := [("001", some wit001)] }

/-- Staged entries: a new path, a modified path and an unchanged path. -/
def stagedNew : Entry := { path := "n.txt", hash := some "h1" }

def stagedMod : Entry := { path := "m.txt", hash := some "h2" }

def stagedSame : Entry := { path := "u.txt", hash := some "h3" }

/-- A parent tree containing the modified path (other hash), the
unchanged path (same hash) and a path that is no longer staged. -/
def parentTreeW : List (String × Entry) :=
  [("m.txt", { path := "m.txt", hash := some "hOld", action := some "added" }),
   ("u.txt", { path := "u.txt", hash := some "h3", action := some "added" }),
   ("d.txt", { path := "d.txt", hash := some "hDel", action := some "added" })]

/-- An index with two distinct paths. -/
def indexW : List Entry :=
  [{ path := "a.txt", hash := some "x" }, { path := "b.txt", hash := some "y" }]

/-! ## General lemmas about the dict model -/

theorem dlookup_dinsert_self {α β : Type} [DecidableEq α]
    (l : List (α × β)) (key : α) (v : β) :
    dlookup (dinsert l key v) key = some v := by
  induction l with
  | nil => simp [dinsert, dlookup]
  | cons hd tl ih =>
    obtain ⟨k, w⟩ := hd
    by_cases hk : k = key
    · subst hk
      simp [dinsert, dlookup]
    · simp [dinsert, dlookup, hk, ih]

/-! ## C1: store followed by retrieve is the identity on blobs -/

/-- C1.  For every byte sequence `B`, if `ObjectStore.store(B)` returns
hash `h`, then `ObjectStore.retrieve(h)` returns exactly `B`, provided
no blob with the same hash but different contents already occupies `h`'s
object path (the no-corruption / no-hash-collision assumption of the
claim). -/
theorem store_retrieve_roundtrip (content : List Nat) (σ : Objects)
    (hprior : ∀ prior, dlookup σ (objPath (compute_hash content)) = some prior →
      prior = content) :
    objRetrieve (objStore content σ).1 (objStore content σ).2 = .ok content := by
  unfold objStore objExists
  cases h : dlookup σ (objPath (compute_hash content)) with
  | none =>
    simp only [h, Option.isSome_none, Bool.false_eq_true, if_false]
    simp [objRetrieve, dlookup_dinsert_self]
  | some prior =>
    have hp := hprior prior h
    subst hp
    simp [objRetrieve, h]

/-- C1 witness: a concrete run on the three-byte blob `"hi\n"` over an
empty object store. -/
theorem store_retrieve_roundtrip_witness :
    objRetrieve (objStore [104, 105, 10] []).1 (objStore [104, 105, 10] []).2 =
      .ok [104, 105, 10] :=
  store_retrieve_roundtrip [104, 105, 10] []
    (fun prior hp => by simp [dlookup] at hp)

/-! ## C10: verify propagates object-not-found and returns false exactly
on corruption -/

/-- C10.  For a hash with no blob file at its object path, `verify`
propagates the not-found failure raised by `retrieve` instead of
returning false; when a blob is present, `verify` returns false exactly
when its bytes hash to a different value, and true exactly when they
hash to the requested value. -/
theorem verify_propagates_not_found (hashValue : String) (σ : Objects) :
    (dlookup σ (objPath hashValue) = none →
      objVerify hashValue σ = .error .objectNotFound) ∧
    (∀ content, dlookup σ (objPath hashValue) = some content →
      (objVerify hashValue σ = .ok false ↔ compute_hash content ≠ hashValue) ∧
      (objVerify hashValue σ = .ok true ↔ compute_hash content = hashValue)) := by
  constructor
  · intro h
    simp [objVerify, objRetrieve, h]
  · intro content hc
    by_cases hh : compute_hash content = hashValue
    · constructor
      · simp [objVerify, objRetrieve, hc, hh]
      · simp [objVerify, objRetrieve, hc, hh]
    · constructor
      · simp [objVerify, objRetrieve, hc, hh]
      · simp [objVerify, objRetrieve, hc, hh]

set_option maxRecDepth 10000 in
/-- C10 witness: not-found propagation on an empty store, and a false
verdict on a planted blob whose bytes do not hash to the requested
value. -/
theorem verify_propagates_not_found_witness :
    objVerify "ab" [] = .error .objectNotFound ∧
    objVerify "ab" [(objPath "ab", [1])] = .ok false :=
  ⟨(verify_propagates_not_found "ab" []).1 rfl,
   ((verify_propagates_not_found "ab" [(objPath "ab", [1])]).2 [1]
      (by simp [dlookup])).1.mpr (by decide)⟩

/-! ## C4: failed commit loads and the cache

The claim says failed loads are not cached as negatives.  The source
calls `_cache.put(cache_key, result)` unconditionally, so a failed load
is cached as `None` and a later load of the same id keeps answering
"not found" from the cache even after the file appears, until
`clear_cache`. -/

/-- C4 counterexample.  Loading missing commit `001` returns "not
found" and inserts a negative cache entry; after the commit file
appears and parses, the same load still returns "not found" from the
cached negative, with no intervening `clear_cache` — contradicting the
claim. -/
theorem load_commit_counterexample :
    load_commit "001" "repo" [] [] = (none, [(("001", "repo"), none)]) ∧
    load_commit_from_disk "001" [("001", some wit001)] = some wit001 ∧
    (load_commit "001" "repo" [("001", some wit001)]
        [(("001", "repo"), none)]).fst = none := by
  decide

/-- C4 as amended.  A failed load returns "not found" and inserts a
negative entry into the commit cache; every subsequent `load_commit` of
the same id — whatever the disk now holds — answers "not found" from
that negative entry until the cache is cleared. -/
theorem load_commit_caches_negative (commitId dirPath : String)
    (disk : CommitDisk) (cache : Cache)
    (hmiss : (cacheGet cache (commitId, dirPath)).fst = false)
    (hfail : load_commit_from_disk commitId disk = none) :
    load_commit commitId dirPath disk cache =
      (none, cachePut cache (commitId, dirPath) none) ∧
    ∀ diskLater,
      (load_commit commitId dirPath diskLater
        (cachePut cache (commitId, dirPath) none)).fst = none := by
  constructor
  · simp [load_commit, hmiss, hfail]
  · intro diskLater
    have hhit : cacheGet (cachePut cache (commitId, dirPath) none)
        (commitId, dirPath) = (true, none) := by
      simp [cacheGet, cachePut, dlookup_dinsert_self]
    simp [load_commit, hhit]

/-- C4 witness: the amended behaviour on the concrete scenario of the
counterexample. -/
theorem load_commit_caches_negative_witness :
    load_commit "001" "repo" [] [] =
      (none, cachePut [] ("001", "repo") none) ∧
    (load_commit "001" "repo" [("001", some wit001)]
      (cachePut [] ("001", "repo") none)).fst = none :=
  ⟨(load_commit_caches_negative "001" "repo" [] [] rfl rfl).1,
   (load_commit_caches_negative "001" "repo" [] [] rfl rfl).2
     [("001", some wit001)]⟩

/-! ## C6: does `update_head` preserve the symbolic/detached mode of
HEAD?

The claim quantifies over the `detached` argument.  With
`detached=True` the source overwrites HEAD with the raw commit id, so a
symbolic HEAD becomes detached — `checkout` relies on exactly this. -/

/-- C6 counterexample.  On a repository whose HEAD is the canonical
symbolic ref, `update_head(…, "001", detached=True)` turns HEAD
detached, so the call does change whether HEAD is symbolic. -/
theorem update_head_counterexample :
    is_detached_head headSymbolic = false ∧
    is_detached_head (update_head headSymbolic "001" true) = true := by
  decide

theorem dropWhile_idem {α : Type} (p : α → Bool) (l : List α) :
    (l.dropWhile p).dropWhile p = l.dropWhile p := by
  induction l with
  | nil => rfl
  | cons a t ih =>
    by_cases h : p a
    · simp [List.dropWhile_cons, h, ih]
    · simp [List.dropWhile_cons, h]

theorem head_false_of_dropWhile_fix {α : Type} (p : α → Bool) (x : α)
    (l : List α) (h : List.dropWhile p (x :: l) = x :: l) : p x = false := by
  cases hpx : p x with
  | false => rfl
  | true =>
    exfalso
    rw [List.dropWhile_cons, if_pos hpx] at h
    have hle := (@List.dropWhile_suffix _ l p).length_le
    rw [h] at hle
    simp at hle

theorem stripList_append_newline (l : List Char) :
    (((((l.dropWhile pyIsSpace).reverse.dropWhile pyIsSpace).reverse ++
        ['\n']).dropWhile pyIsSpace).reverse.dropWhile pyIsSpace).reverse =
      ((l.dropWhile pyIsSpace).reverse.dropWhile pyIsSpace).reverse := by
  have hnl : pyIsSpace '\n' = true := by decide
  have hmm : (l.dropWhile pyIsSpace).dropWhile pyIsSpace =
      l.dropWhile pyIsSpace := dropWhile_idem pyIsSpace l
  have hums : ((l.dropWhile pyIsSpace).reverse.dropWhile
      pyIsSpace).dropWhile pyIsSpace =
      (l.dropWhile pyIsSpace).reverse.dropWhile pyIsSpace :=
    dropWhile_idem pyIsSpace (l.dropWhile pyIsSpace).reverse
  cases hS : ((l.dropWhile pyIsSpace).reverse.dropWhile pyIsSpace).reverse with
  | nil =>
    simp [List.dropWhile_cons, hnl]
  | cons x t =>
    have hu : (l.dropWhile pyIsSpace).reverse.dropWhile pyIsSpace =
        (x :: t).reverse := by
      rw [← hS, List.reverse_reverse]
    have hpref : x :: t <+: l.dropWhile pyIsSpace := by
      have hsfx : (l.dropWhile pyIsSpace).reverse.dropWhile pyIsSpace <:+
          (l.dropWhile pyIsSpace).reverse := List.dropWhile_suffix pyIsSpace
      rw [hu] at hsfx
      exact (@List.reverse_suffix Char (x :: t) (l.dropWhile pyIsSpace)).mp
        hsfx
    obtain ⟨rest, hrest⟩ := hpref
    have hx : pyIsSpace x = false := by
      apply head_false_of_dropWhile_fix pyIsSpace x (t ++ rest)
      rw [← List.cons_append, hrest]
      exact hmm
    have hstep : ((x :: t) ++ ['\n']).dropWhile pyIsSpace =
        (x :: t) ++ ['\n'] := by
      simp [List.cons_append, List.dropWhile_cons, hx]
    have hrev : ((x :: t) ++ ['\n']).reverse = '\n' :: (x :: t).reverse := by
      simp
    rw [hstep, hrev, List.dropWhile_cons, if_pos hnl]
    rw [hu] at hums
    rw [hums, List.reverse_reverse]

theorem pyStrip_append_newline (s : String) :
    pyStrip (pyStrip s ++ "\n") = pyStrip s := by
  have hd : (pyStrip s ++ "\n").data =
      ((s.data.dropWhile pyIsSpace).reverse.dropWhile pyIsSpace).reverse ++
        ['\n'] := by
    rw [String.data_append]
    rfl
  show String.mk _ = _
  rw [hd]
  exact congrArg String.mk (stripList_append_newline s.data)

theorem pyStrip_refFileContents (s : String) :
    pyStrip (refFileContents s) = pyStrip s :=
  pyStrip_append_newline s

/-- C6 as amended.  `update_head` with `detached=False` never changes
whether HEAD is symbolic or detached (given HEAD, if present, does not
strip to empty); with `detached=True` it always leaves HEAD detached
(for a commit id that strips to a nonempty non-`ref: ` string), even
when HEAD was symbolic before. -/
theorem update_head_modes (σ : RefState) (commitId : String)
    (hraw : ∀ raw, σ.head = some raw → pyStrip raw ≠ "")
    (hcid : pyStrip commitId ≠ "")
    (hcidref : pyStartsWith (pyStrip commitId) "ref: " = false) :
    is_detached_head (update_head σ commitId false) = is_detached_head σ ∧
    is_detached_head (update_head σ commitId true) = true := by
  have h1 : read_head { σ with head := some (refFileContents commitId) } =
      some (pyStrip commitId) := by
    simp only [read_head, pyStrip_refFileContents]
    rw [if_neg hcid]
  have hdet : is_detached_head
      { σ with head := some (refFileContents commitId) } = true := by
    simp [is_detached_head, h1, hcidref]
  constructor
  · cases hσ : σ.head with
    | none =>
      have hsw : pyStartsWith "ref: refs/heads/main" "ref: " = true := by
        decide
      simp [update_head, hσ, hsw, is_detached_head, read_head]
    | some raw =>
      have hne := hraw raw hσ
      cases hsw : pyStartsWith (pyStrip raw) "ref: " with
      | true =>
        simp [update_head, hσ, hsw, is_detached_head, read_head]
      | false =>
        have h2 : read_head σ = some (pyStrip raw) := by
          simp only [read_head, hσ]
          rw [if_neg hne]
        have hrhs : is_detached_head σ = true := by
          simp [is_detached_head, h2, hsw]
        have hupd : update_head σ commitId false =
            { σ with head := some (refFileContents commitId) } := by
          simp [update_head, hσ, hsw]
        rw [hupd, hdet, hrhs]
  · have hupd : update_head σ commitId true =
        { σ with head := some (refFileContents commitId) } := by
      simp [update_head]
    rw [hupd, hdet]

/-- C6 witness: the amended behaviour on the canonical symbolic HEAD and
commit id `001`. -/
theorem update_head_modes_witness :
    is_detached_head (update_head headSymbolic "001" false) =
      is_detached_head headSymbolic ∧
    is_detached_head (update_head headSymbolic "001" true) = true :=
  update_head_modes headSymbolic "001"
    (fun raw h => by
      rw [show headSymbolic.head = some "ref: refs/heads/main\n" from rfl] at h
      cases h
      decide)
    (by decide) (by decide)

/-! ## C9: checkout with a missing referenced blob fails without side
effects

In the source, the blob-existence check runs after the commit is loaded
and before any file is written or removed, before the index is rebuilt
and before HEAD is touched; the early `return 1` therefore leaves the
repository exactly as it was. -/

/-- C9.  If any file entry of the target commit's reconstructed tree
references a blob absent from the object store, `checkout` exits with
code 1 and the repository state — workspace, index, HEAD and everything
else — is unchanged. -/
theorem checkout_missing_blob_clean_fail (commitId : String) (force : Bool)
    (promptAnswer : String) (σ : RepoState)
    (hinit : σ.initialized = true)
    (hfound : ∃ c, load_commit_from_disk commitId σ.commitsDisk = some c)
    (hmissing : ∃ pr ∈ build_tree_state_list commitId σ.commitsDisk,
      ∃ h, pr.snd.hash = some h ∧ objExists h σ.objects = false) :
    checkout_execute commitId force promptAnswer σ = (1, σ) := by
  obtain ⟨c, hc⟩ := hfound
  have hany : ((build_tree_state_list commitId σ.commitsDisk).map
      Prod.snd).any (fun e =>
        match e.hash with
        | none => true
        | some fileHash => !objExists fileHash σ.objects) = true := by
    obtain ⟨pr, hpr, h, hh, hex⟩ := hmissing
    refine List.any_eq_true.mpr ⟨pr.snd, List.mem_map_of_mem _ hpr, ?_⟩
    rw [hh]
    simp [hex]
  simp only [checkout_execute, hinit, Bool.not_true, Bool.false_eq_true,
    if_false, hc]
  split
  · rfl
  · simp [hany]

/-- C9 witness: an initialized repository holding commit `001` whose
blob `ha` is absent from the (empty) object store. -/
theorem checkout_missing_blob_clean_fail_witness :
    checkout_execute "001" true "" missingBlobRepo = (1, missingBlobRepo) :=
  checkout_missing_blob_clean_fail "001" true "" missingBlobRepo rfl
    ⟨wit001, by decide⟩
    ⟨("a.txt", { path := "a.txt", hash := some "ha", action := some "added" }),
     by decide, "ha", rfl, by decide⟩

/-! ## C7: index path uniqueness and in-place replacement -/

theorem indexAdd_keeps_other_paths (entries : List Entry) (p : String) :
    ∀ e ∈ (if entries.any (fun e => e.path == p) then
        entries.filter (fun e => e.path != p) else entries), e.path ≠ p := by
  by_cases hany : entries.any (fun e => e.path == p)
  · intro e he
    rw [if_pos hany] at he
    have := List.of_mem_filter he
    simpa using this
  · intro e he
    rw [if_neg hany] at he
    have := List.any_eq_false.mp (Bool.eq_false_iff.mpr hany) e he
    simpa using this

theorem indexAdd_nodup (entries : List Entry) (p : String)
    (hv : Option String) (md : Metadata)
    (hnd : (entries.map Entry.path).Nodup) :
    ((indexAdd entries p hv md).map Entry.path).Nodup := by
  unfold indexAdd
  rw [List.map_append, List.nodup_append]
  refine ⟨?_, by simp, ?_⟩
  · by_cases hany : entries.any (fun e => e.path == p)
    · rw [if_pos hany]
      exact ((List.filter_sublist entries).map Entry.path).nodup hnd
    · rw [if_neg hany]
      exact hnd
  · intro a ha hb
    simp only [List.map_cons, List.map_nil, List.mem_singleton] at hb
    obtain ⟨e, he, hpe⟩ := List.mem_map.mp ha
    exact indexAdd_keeps_other_paths entries p e he (hpe.trans hb)

theorem indexBatchAdd_nodup (adds : List (String × Option String × Metadata)) :
    ∀ entries : List Entry, (entries.map Entry.path).Nodup →
      ((indexBatchAdd entries adds).map Entry.path).Nodup := by
  induction adds with
  | nil => intro entries hnd; exact hnd
  | cons a rest ih =>
    intro entries hnd
    exact ih (indexAdd entries a.1 a.2.1 a.2.2)
      (indexAdd_nodup entries a.1 a.2.1 a.2.2 hnd)

/-- C7.  Paths stay unique through `add` and `batch_add`, and an `add`
of a path replaces that path's entry: afterwards exactly one entry for
the path exists, holding the new hash and metadata, and the entries for
every other path are exactly what they were. -/
theorem index_add_unique_replace (entries : List Entry) (p : String)
    (hv : Option String) (md : Metadata)
    (adds : List (String × Option String × Metadata))
    (hnd : (entries.map Entry.path).Nodup) :
    ((indexAdd entries p hv md).map Entry.path).Nodup ∧
    (indexAdd entries p hv md).filter (fun e => e.path == p) =
      [{ path := p, hash := hv, size := md.size, mode := md.mode,
         mtime := md.mtime }] ∧
    (indexAdd entries p hv md).filter (fun e => e.path != p) =
      entries.filter (fun e => e.path != p) ∧
    ((indexBatchAdd entries adds).map Entry.path).Nodup := by
  refine ⟨indexAdd_nodup entries p hv md hnd, ?_, ?_,
    indexBatchAdd_nodup adds entries hnd⟩
  · unfold indexAdd
    rw [List.filter_append]
    have hnil : (if entries.any (fun e => e.path == p) then
        entries.filter (fun e => e.path != p) else entries).filter
          (fun e => e.path == p) = [] := by
      rw [List.filter_eq_nil_iff]
      intro e he
      simpa using indexAdd_keeps_other_paths entries p e he
    rw [hnil]
    simp
  · unfold indexAdd
    rw [List.filter_append]
    by_cases hany : entries.any (fun e => e.path == p)
    · rw [if_pos hany, List.filter_filter]
      simp [Bool.and_self]
    · rw [if_neg hany]
      simp

/-- C7 witness: replacing `a.txt` in a two-entry index, plus a batch
add. -/
theorem index_add_unique_replace_witness :
    ((indexAdd indexW "a.txt" (some "z") {}).map Entry.path).Nodup ∧
    (indexAdd indexW "a.txt" (some "z") {}).filter
        (fun e => e.path == "a.txt") =
      [{ path := "a.txt", hash := some "z", size := Metadata.size {},
         mode := Metadata.mode {}, mtime := Metadata.mtime {} }] ∧
    (indexAdd indexW "a.txt" (some "z") {}).filter
        (fun e => e.path != "a.txt") =
      indexW.filter (fun e => e.path != "a.txt") ∧
    ((indexBatchAdd indexW [("a.txt", some "w", {})]).map Entry.path).Nodup :=
  index_add_unique_replace indexW "a.txt" (some "z") {}
    [("a.txt", some "w", {})] (by decide)

/-! ## C3: file-action inference -/

theorem foldl_append_map {α β : Type} (f : α → β) (l : List α) :
    ∀ acc : List β, l.foldl (fun a x => a ++ [f x]) acc = acc ++ l.map f := by
  induction l with
  | nil => intro acc; simp
  | cons x t ih =>
    intro acc
    simp [List.foldl_cons, ih]

theorem foldl_append_filter_map {α β : Type} (p : α → Bool) (g : α → β)
    (l : List α) :
    ∀ acc : List β,
      l.foldl (fun a x => if p x then a else a ++ [g x]) acc =
        acc ++ (l.filter (fun x => !p x)).map g := by
  induction l with
  | nil => intro acc; simp
  | cons x t ih =>
    intro acc
    cases hx : p x with
    | true => simp [List.foldl_cons, hx, ih]
    | false => simp [List.foldl_cons, hx, ih]

theorem get_file_actions_eq (staged : List Entry)
    (ptree : List (String × Entry)) :
    get_file_actions staged ptree =
      staged.map (actionFor ptree) ++
        (ptree.filter (fun pf =>
          !(staged.any (fun f => f.path == pf.fst)))).map
          (fun pf => { pf.snd with action := some "deleted" }) := by
  unfold get_file_actions
  by_cases hempty : ptree.isEmpty
  · have hnil : ptree = [] := List.isEmpty_iff.mp hempty
    subst hnil
    simp [foldl_append_map]
  · rw [if_neg hempty, foldl_append_map, List.nil_append,
      foldl_append_filter_map]

/-- C3.  Action inference assigns `added` to each staged path absent
from the parent tree, `modified` to each staged path present with a
different hash, `unchanged` to each staged path present with the same
hash, and emits one `deleted` entry per parent-tree path that is not
staged — that entry being the parent's entry itself (so it carries the
parent's hash, never a placeholder). -/
theorem get_file_actions_spec (staged : List Entry)
    (ptree : List (String × Entry)) :
    (∀ s ∈ staged, dlookup ptree s.path = none →
      { s with action := some "added" } ∈ get_file_actions staged ptree) ∧
    (∀ s ∈ staged, ∀ pe, dlookup ptree s.path = some pe → pe.hash ≠ s.hash →
      { s with action := some "modified" } ∈ get_file_actions staged ptree) ∧
    (∀ s ∈ staged, ∀ pe, dlookup ptree s.path = some pe → pe.hash = s.hash →
      { s with action := some "unchanged" } ∈ get_file_actions staged ptree) ∧
    (∀ pf ∈ ptree, (∀ s ∈ staged, s.path ≠ pf.fst) →
      { pf.snd with action := some "deleted" } ∈
          get_file_actions staged ptree ∧
        Entry.hash { pf.snd with action := some "deleted" } = pf.snd.hash) ∧
    (get_file_actions staged ptree).length =
      staged.length + (ptree.filter (fun pf =>
        !(staged.any (fun f => f.path == pf.fst)))).length := by
  rw [get_file_actions_eq]
  refine ⟨?_, ?_, ?_, ?_, by simp⟩
  · intro s hs hlook
    refine List.mem_append_left _ (List.mem_map.mpr ⟨s, hs, ?_⟩)
    simp [actionFor, hlook]
  · intro s hs pe hlook hne
    refine List.mem_append_left _ (List.mem_map.mpr ⟨s, hs, ?_⟩)
    simp [actionFor, hlook, hne]
  · intro s hs pe hlook heq
    refine List.mem_append_left _ (List.mem_map.mpr ⟨s, hs, ?_⟩)
    simp [actionFor, hlook, heq]
  · intro pf hpf hnostage
    refine ⟨List.mem_append_right _ (List.mem_map.mpr ⟨pf, ?_, rfl⟩), rfl⟩
    refine List.mem_filter.mpr ⟨hpf, ?_⟩
    simp only [Bool.not_eq_eq_eq_not, Bool.not_true, List.any_eq_false]
    intro f hf
    simpa using hnostage f hf

/-- C3 witness: one staged entry of each kind against a parent tree
that also holds a no-longer-staged path. -/
theorem get_file_actions_spec_witness :
    { stagedNew with action := some "added" } ∈
      get_file_actions [stagedNew, stagedMod, stagedSame] parentTreeW ∧
    { stagedMod with action := some "modified" } ∈
      get_file_actions [stagedNew, stagedMod, stagedSame] parentTreeW ∧
    { stagedSame with action := some "unchanged" } ∈
      get_file_actions [stagedNew, stagedMod, stagedSame] parentTreeW ∧
    { path := "d.txt", hash := some "hDel", action := some "deleted" } ∈
      get_file_actions [stagedNew, stagedMod, stagedSame] parentTreeW ∧
    (get_file_actions [stagedNew, stagedMod, stagedSame] parentTreeW).length =
      4 := by
  have t := get_file_actions_spec [stagedNew, stagedMod, stagedSame] parentTreeW
  refine ⟨?_, ?_, ?_, ?_, ?_⟩
  · exact t.1 stagedNew (by decide) (by decide)
  · exact t.2.1 stagedMod (by decide)
      { path := "m.txt", hash := some "hOld", action := some "added" }
      (by decide) (by decide)
  · exact t.2.2.1 stagedSame (by decide)
      { path := "u.txt", hash := some "h3", action := some "added" }
      (by decide) (by decide)
  · exact (t.2.2.2.1
      ("d.txt", { path := "d.txt", hash := some "hDel",
                  action := some "added" })
      (by decide) (by decide)).1
  · rw [t.2.2.2.2]
    decide

/-! ## C8: ignore evaluation is the order-sensitive fold -/

theorem should_ignore_compiled_fold (pathName pathStr : String)
    (patterns : List String) :
    ∀ st : Bool,
      (compile_patterns patterns).foldl (fun ignored cp =>
        if matches_compiled pathName pathStr cp then !cp.isNegation
        else ignored) st =
      patterns.foldl (ignoreFoldStep pathName pathStr) st := by
  induction patterns with
  | nil => intro st; rfl
  | cons p rest ih =>
    intro st
    unfold compile_patterns
    rw [List.filterMap_cons]
    cases hc : compileOne p with
    | none =>
      have hstep : ignoreFoldStep pathName pathStr st p = st := by
        simp [ignoreFoldStep, hc]
      rw [List.foldl_cons, hstep]
      exact ih st
    | some cp =>
      have hstep : ignoreFoldStep pathName pathStr st p =
          (if matches_compiled pathName pathStr cp then !cp.isNegation
            else st) := by
        simp [ignoreFoldStep, hc]
      rw [List.foldl_cons, List.foldl_cons, hstep]
      exact ih _

/-- C8.  `should_ignore(p, P)` equals the left-fold over the raw
pattern sequence `P` starting from `false`, in which a matching
positive pattern sets the state to true and a matching negation pattern
sets it to false, so later patterns override earlier ones. -/
theorem should_ignore_is_fold (pathStr : String) (patterns : List String) :
    should_ignore pathStr patterns =
      patterns.foldl (ignoreFoldStep (pathBaseName pathStr) pathStr) false := by
  unfold should_ignore
  by_cases hempty : patterns.isEmpty
  · have hnil : patterns = [] := List.isEmpty_iff.mp hempty
    subst hnil
    rfl
  · rw [if_neg hempty]
    exact should_ignore_compiled_fold (pathBaseName pathStr) pathStr
      patterns false

/-! ## C5: ordering of `list_commits`

The source sorts by the id string.  Lexicographic descending order
disagrees with numeric descending order across the `999`/`1000` width
boundary — as the spec itself warns in its design notes. -/

/-- C5 counterexample.  With commits `999` and `1000` both present and
parseable, `list_commits` puts `999` first, not `1000` as the claim
requires of a newest-first ordering under the sequential id
generator. -/
theorem list_commits_counterexample :
    (list_commits [some cex1000, some cex999]).map Commit.id =
      ["999", "1000"] ∧
    (list_commits [some cex1000, some cex999]).map Commit.id ≠
      ["1000", "999"] := by
  decide

theorem insertDesc_perm (c : Commit) (l : List Commit) :
    (insertDesc c l).Perm (c :: l) := by
  induction l with
  | nil => exact List.Perm.refl _
  | cons d ds ih =>
    unfold insertDesc
    cases hle : strLe c.id d.id with
    | true =>
      simp only [if_true]
      exact (ih.cons d).trans (List.Perm.swap c d ds)
    | false =>
      simp only [Bool.false_eq_true, if_false]
      exact List.Perm.refl _

theorem sortByIdDesc_perm_aux :
    ∀ (l acc : List Commit),
      (l.foldl (fun acc c => insertDesc c acc) acc).Perm (l ++ acc) := by
  intro l
  induction l with
  | nil => intro acc; simp
  | cons c t ih =>
    intro acc
    rw [List.foldl_cons]
    refine (ih (insertDesc c acc)).trans ?_
    refine (List.Perm.append_left t (insertDesc_perm c acc)).trans ?_
    exact List.perm_middle

theorem sortByIdDesc_perm (l : List Commit) : (sortByIdDesc l).Perm l := by
  have h := sortByIdDesc_perm_aux l []
  simpa [sortByIdDesc] using h

theorem charListLe_total (as : List Char) :
    ∀ bs, charListLe as bs = true ∨ charListLe bs as = true := by
  induction as with
  | nil => intro bs; left; rfl
  | cons a as ih =>
    intro bs
    cases bs with
    | nil => right; rfl
    | cons b bs =>
      by_cases hab : a = b
      · subst hab
        rcases ih bs with h | h
        · left; simpa [charListLe] using h
        · right; simpa [charListLe] using h
      · rcases lt_trichotomy a b with hlt | heq | hgt
        · left; simp [charListLe, hab, hlt]
        · exact absurd heq hab
        · right; simp [charListLe, Ne.symm hab, hgt]

theorem charListLe_trans (as : List Char) :
    ∀ bs cs, charListLe as bs = true → charListLe bs cs = true →
      charListLe as cs = true := by
  induction as with
  | nil => intro bs cs _ _; rfl
  | cons a as ih =>
    intro bs cs h1 h2
    cases bs with
    | nil => simp [charListLe] at h1
    | cons b bs =>
      cases cs with
      | nil => simp [charListLe] at h2
      | cons c cs =>
        by_cases hab : a = b
        · subst hab
          simp only [charListLe, if_pos rfl] at h1
          by_cases hac : a = c
          · subst hac
            simp only [charListLe, if_pos rfl] at h2 ⊢
            exact ih bs cs h1 h2
          · simp only [charListLe, if_neg hac] at h2 ⊢
            exact h2
        · simp only [charListLe, if_neg hab, decide_eq_true_eq] at h1
          by_cases hbc : b = c
          · subst hbc
            simp [charListLe, hab, h1]
          · simp only [charListLe, if_neg hbc, decide_eq_true_eq] at h2
            have hac : a < c := lt_trans h1 h2
            simp [charListLe, ne_of_lt hac, hac]

theorem strLe_total (s t : String) : strLe s t = true ∨ strLe t s = true :=
  charListLe_total s.data t.data

theorem strLe_trans (s t u : String) (h1 : strLe s t = true)
    (h2 : strLe t u = true) : strLe s u = true :=
  charListLe_trans s.data t.data u.data h1 h2

theorem insertDesc_pairwise (c : Commit) (l : List Commit)
    (h : l.Pairwise (fun a b => strLe b.id a.id = true)) :
    (insertDesc c l).Pairwise (fun a b => strLe b.id a.id = true) := by
  induction l with
  | nil => simp [insertDesc]
  | cons d ds ih =>
    obtain ⟨hd, hds⟩ := List.pairwise_cons.mp h
    unfold insertDesc
    cases hle : strLe c.id d.id with
    | true =>
      simp only [if_true]
      refine List.pairwise_cons.mpr ⟨?_, ih hds⟩
      intro y hy
      rcases List.mem_cons.mp ((insertDesc_perm c ds).mem_iff.mp hy)
        with h2 | h2
      · subst h2; exact hle
      · exact hd y h2
    | false =>
      simp only [Bool.false_eq_true, if_false]
      refine List.pairwise_cons.mpr ⟨?_, h⟩
      have hdc : strLe d.id c.id = true := by
        rcases strLe_total c.id d.id with hcd | hdc
        · rw [hle] at hcd; exact absurd hcd (by simp)
        · exact hdc
      intro y hy
      rcases List.mem_cons.mp hy with hy | hy
      · subst hy; exact hdc
      · exact strLe_trans y.id d.id c.id (hd y hy) hdc

theorem sortByIdDesc_sorted_aux :
    ∀ (l acc : List Commit),
      acc.Pairwise (fun a b => strLe b.id a.id = true) →
      (l.foldl (fun acc c => insertDesc c acc) acc).Pairwise
        (fun a b => strLe b.id a.id = true) := by
  intro l
  induction l with
  | nil => intro acc hacc; exact hacc
  | cons c t ih =>
    intro acc hacc
    rw [List.foldl_cons]
    exact ih (insertDesc c acc) (insertDesc_pairwise c acc hacc)

/-- C5 as amended.  `list_commits` returns exactly the parseable
commits (a permutation of them), sorted in descending lexicographic
order of the id string — which is newest-first whenever all ids have
the same width, but not across width boundaries such as
`999`/`1000`. -/
theorem list_commits_sorted_lexicographic (files : List (Option Commit)) :
    (list_commits files).Perm (files.filterMap id) ∧
    (list_commits files).Pairwise (fun a b => strLe b.id a.id = true) := by
  constructor
  · exact sortByIdDesc_perm (files.filterMap id)
  · exact sortByIdDesc_sorted_aux (files.filterMap id) [] List.Pairwise.nil

/-! ## C2: the two tree-state reconstructions

The parent-chain walk of `tree.py` always folds the true chain prefix.
The list-based variant of `checkout/execute.py` relies on the
lexicographic descending sort of `list_commits`, which reverses to
chain order only while all ids have equal width; at the `999`/`1000`
boundary the two implementations disagree. -/

/-- C2 counterexample.  The strictly linear two-commit history
`999 → 1000` (distinct, non-empty ids; parent links in order) on which
the parent-chain reconstruction and the list-based reconstruction of
commit `1000` differ: the list-based variant reverses the lexicographic
sort, reaches `1000` first and never applies `999`. -/
theorem tree_state_counterexample :
    chainLinked none [cex999, cex1000] = true ∧
    ([cex999, cex1000].map Commit.id).Nodup ∧
    build_tree_state_chain "1000" (canonDisk [cex999, cex1000]) ≠
      build_tree_state_list "1000" (canonDisk [cex999, cex1000]) := by
  decide

theorem chainLinked_prefix (xs ys : List Commit) (p : Option String)
    (h : chainLinked p (xs ++ ys) = true) : chainLinked p xs = true := by
  induction xs generalizing p with
  | nil => rfl
  | cons c t ih =>
    simp only [List.cons_append, chainLinked, Bool.and_eq_true] at h ⊢
    exact ⟨⟨h.1.1, h.1.2⟩, ih (some c.id) h.2⟩

theorem chainLinked_pair (xs : List Commit) (p : Option String)
    (d c : Commit) (ys : List Commit)
    (h : chainLinked p (xs ++ d :: c :: ys) = true) :
    c.parent = some d.id := by
  induction xs generalizing p with
  | nil =>
    simp only [List.nil_append, chainLinked, Bool.and_eq_true] at h
    have := h.2.1.1
    exact beq_iff_eq.mp this
  | cons e t ih =>
    simp only [List.cons_append, chainLinked, Bool.and_eq_true] at h
    exact ih (some e.id) h.2

theorem chainLinked_ids (l : List Commit) (p : Option String)
    (h : chainLinked p l = true) : ∀ x ∈ l, x.id ≠ "" := by
  induction l generalizing p with
  | nil => intro x hx; exact absurd hx (List.not_mem_nil x)
  | cons c t ih =>
    simp only [chainLinked, Bool.and_eq_true] at h
    intro x hx
    rcases List.mem_cons.mp hx with hx | hx
    · subst hx
      simpa using h.1.2
    · exact ih (some c.id) h.2 x hx

theorem load_canonical (ch : List Commit)
    (hnd : (ch.map Commit.id).Nodup) :
    ∀ x ∈ ch, load_commit_from_disk x.id (canonDisk ch) = some x := by
  induction ch with
  | nil => intro x hx; exact absurd hx (List.not_mem_nil x)
  | cons y t ih =>
    intro x hx
    simp only [List.map_cons, List.nodup_cons] at hnd
    rcases List.mem_cons.mp hx with hx | hx
    · subst hx
      simp [load_commit_from_disk, canonDisk, dlookup]
    · have hne : y.id ≠ x.id := by
        intro he
        exact hnd.1 (he ▸ List.mem_map_of_mem Commit.id hx)
      have := ih hnd.2 x hx
      simpa [load_commit_from_disk, canonDisk, dlookup, hne] using this

theorem walkParentChain_none (disk : CommitDisk) (fuel : Nat) :
    walkParentChain disk fuel none = [] := by
  cases fuel <;> rfl

theorem walk_chain (pre : List Commit) :
    ∀ (c : Commit) (fuel : Nat) (disk : CommitDisk),
      chainLinked none (pre ++ [c]) = true →
      (∀ x ∈ pre ++ [c], load_commit_from_disk x.id disk = some x) →
      pre.length < fuel →
      walkParentChain disk fuel (some c.id) = c :: pre.reverse := by
  induction pre using List.reverseRecOn with
  | nil =>
    intro c fuel disk hchain hload hfuel
    simp only [List.nil_append, chainLinked, Bool.and_eq_true] at hchain
    have hparent : c.parent = none := beq_iff_eq.mp hchain.1.1
    have hne : c.id ≠ "" := by simpa using hchain.1.2
    cases fuel with
    | zero => omega
    | succ n =>
      simp only [walkParentChain, if_neg hne,
        hload c (List.mem_singleton_self c), hparent, walkParentChain_none,
        List.reverse_nil]
  | append_singleton t d ih =>
    intro c fuel disk hchain hload hfuel
    have hassoc : (t ++ [d]) ++ [c] = t ++ d :: c :: [] := by simp
    have hpc : chainLinked none (t ++ [d]) = true :=
      chainLinked_prefix (t ++ [d]) [c] none hchain
    have hparent : c.parent = some d.id := by
      rw [hassoc] at hchain
      exact chainLinked_pair t none d c [] hchain
    have hcne : c.id ≠ "" := by
      refine chainLinked_ids _ none hchain c ?_
      exact List.mem_append_right _ (List.mem_singleton_self c)
    cases fuel with
    | zero => simp at hfuel
    | succ n =>
      have hn : t.length < n := by
        simp only [List.length_append, List.length_singleton] at hfuel
        omega
      have hc : load_commit_from_disk c.id disk = some c :=
        hload c (List.mem_append_right _ (List.mem_singleton_self c))
      have hloadt : ∀ x ∈ t ++ [d], load_commit_from_disk x.id disk = some x := by
        intro x hx
        exact hload x (List.mem_append_left _ hx)
      simp only [walkParentChain, if_neg hcne, hc, hparent,
        ih d n disk hpc hloadt hn]
      simp

theorem takeThrough_split (pre : List Commit) (c : Commit)
    (suf : List Commit) (hne : ∀ x ∈ pre, x.id ≠ c.id) :
    takeThroughId c.id (pre ++ c :: suf) = pre ++ [c] := by
  induction pre with
  | nil => simp [takeThroughId]
  | cons e t ih =>
    have he : e.id ≠ c.id := hne e (List.mem_cons_self e t)
    simp only [List.cons_append, takeThroughId, if_neg he, List.append_eq]
    rw [ih (fun x hx => hne x (List.mem_cons_of_mem e hx))]

theorem canon_parse_outcomes (ch : List Commit) :
    ((canonDisk ch).map Prod.snd).filterMap id = ch := by
  induction ch with
  | nil => rfl
  | cons c t ih => simp [canonDisk, List.filterMap_cons] at ih ⊢; exact ih

/-- C2 as amended.  For every commit `c` of a strictly linear history
whose descending id-sort lists the chain newest-first (true whenever all
ids share one width), both `build_tree_state` implementations — the
parent-chain walk and the list-based variant — compute exactly the
left-fold of the file actions from the root commit forward to `c`,
where `deleted` removes the path and every other action sets or
overwrites it; in particular they agree. -/
theorem tree_state_implementations_agree (ch pre suf : List Commit)
    (c : Commit)
    (hsplit : ch = pre ++ c :: suf)
    (hchain : chainLinked none ch = true)
    (hnd : (ch.map Commit.id).Nodup)
    (hsort : sortByIdDesc ch = ch.reverse) :
    build_tree_state_chain c.id (canonDisk ch) =
      (pre ++ [c]).foldl applyFiles [] ∧
    build_tree_state_list c.id (canonDisk ch) =
      (pre ++ [c]).foldl applyFiles [] := by
  subst hsplit
  constructor
  · have hpc : chainLinked none (pre ++ [c]) = true := by
      have h1 : pre ++ c :: suf = (pre ++ [c]) ++ suf := by simp
      rw [h1] at hchain
      exact chainLinked_prefix _ _ _ hchain
    have hload : ∀ x ∈ pre ++ [c],
        load_commit_from_disk x.id (canonDisk (pre ++ c :: suf)) = some x := by
      intro x hx
      apply load_canonical _ hnd
      rcases List.mem_append.mp hx with h | h
      · exact List.mem_append_left _ h
      · rw [List.mem_singleton.mp h]
        exact List.mem_append_right _ (List.mem_cons_self _ _)
    have hfuel : pre.length < (canonDisk (pre ++ c :: suf)).length + 1 := by
      simp [canonDisk]
      omega
    simp only [build_tree_state_chain]
    rw [walk_chain pre c _ _ hpc hload hfuel]
    simp
  · have h1 : list_commits ((canonDisk (pre ++ c :: suf)).map Prod.snd) =
        (pre ++ c :: suf).reverse := by
      unfold list_commits
      rw [canon_parse_outcomes]
      exact hsort
    have hne : ∀ x ∈ pre, x.id ≠ c.id := by
      intro x hx hxe
      rw [List.map_append, List.map_cons] at hnd
      have hdisj := (List.nodup_append.mp hnd).2.2
      exact hdisj (List.mem_map_of_mem Commit.id hx)
        (by rw [hxe]; exact List.mem_cons_self _ _)
    simp only [build_tree_state_list]
    rw [h1, List.reverse_reverse, takeThrough_split pre c suf hne]

/-- C2 witness: the two-commit history `001 → 002` (equal-width ids),
on which both reconstructions of commit `002` equal the fold of both
commits. -/
theorem tree_state_implementations_agree_witness :
    chainLinked none [wit001, wit002] = true ∧
    ([wit001, wit002].map Commit.id).Nodup ∧
    sortByIdDesc [wit001, wit002] = [wit001, wit002].reverse ∧
    build_tree_state_chain "002" (canonDisk [wit001, wit002]) =
      [wit001, wit002].foldl applyFiles [] ∧
    build_tree_state_list "002" (canonDisk [wit001, wit002]) =
      [wit001, wit002].foldl applyFiles [] := by
  have t := tree_state_implementations_agree [wit001, wit002] [wit001] []
    wit002 rfl (by decide) (by decide) (by decide)
  exact ⟨by decide, by decide, by decide, t.1, t.2⟩

end OFS
